import Mathlib

/-!
Shallow embedding of the Seismographer live-map core: the color ramp
(`valueToColor` / `valToRGB`), the inverse-distance-weighting interpolator of
`GreenHeatOverlay.draw`, the latest-value reading store of the IPC `App.handler`,
the polling prototype's marker list, the pin/overlay mode toggle, and the
draw-effect lifecycle (animation-frame loop plus viewport listeners and their
cleanup).  JavaScript numbers are modelled as exact rationals or reals; JS
`Math.round` is floor of `x + 1/2`.
-/

namespace Seismographer

/-! ### Color mapping

Embeds `valueToColor` (identical in both renderer prototypes): clamp the value
to `[-3, 3]`; below zero ramp red to yellow, otherwise yellow to green.  The
rgb string is modelled as the integer triple it prints. -/

/-- JS `Math.round`: round half toward positive infinity. -/
def jsRound (q : ℚ) : ℤ := ⌊q + 1/2⌋

/-- `Math.max(-3, Math.min(3, v))`. -/
def clampRange (v : ℚ) : ℚ := max (-3) (min 3 v)

/-- `valueToColor`: value in `[-3..3]` to colour, as the `(r, g, b)` triple of
the produced `rgb(r, g, b)` string. -/
def valueToColor (v : ℚ) : ℤ × ℤ × ℤ :=
  let val := clampRange v
  if val < 0 then
    (255, jsRound (255 * ((val + 3) / 3)), 0)
  else
    (jsRound (255 * (1 - val / 3)), 255, 0)

/-- Spec-side linear interpolation `a + (b - a) * t`. -/
def lerp (a b t : ℚ) : ℚ := a + (b - a) * t

/-- Spec-side: componentwise linear interpolation between two colours,
each channel rounded as JS does. -/
def lerpColor (c1 c2 : ℚ × ℚ × ℚ) (t : ℚ) : ℤ × ℤ × ℤ :=
  (jsRound (lerp c1.1 c2.1 t), jsRound (lerp c1.2.1 c2.2.1 t),
    jsRound (lerp c1.2.2 c2.2.2 t))

def redC : ℚ × ℚ × ℚ := (255, 0, 0)
def yellowC : ℚ × ℚ × ℚ := (255, 255, 0)
def greenC : ℚ × ℚ × ℚ := (0, 255, 0)

/-! ### Reading store

Embeds the IPC renderer's `App.handler`: a fresh record is filled with
`nextVals[s.id] = s.rms ?? 0` for each station of the payload and installed as
the current store; reads go through `values[id] ?? 0`. -/

/-- One station entry of a `/live` payload; `rms` is `Option` because the JS
reads it through `s.rms ?? 0`. -/
structure LiveStation where
  id : String
  rms : Option ℚ

/-- The latest-value cache `valuesRef.current`, a JS record keyed by station id. -/
def Store : Type := String → Option ℚ

/-- The empty record `{}`. -/
def emptyStore : Store := fun _ => none

/-- A single JS record write `nextVals[id] = v`. -/
def setVal (m : Store) (id : String) (v : ℚ) : Store :=
  fun k => if k = id then some v else m k

/-- One loop iteration of the handler: `nextVals[s.id] = s.rms ?? 0`. -/
def handleStation (m : Store) (s : LiveStation) : Store :=
  setVal m s.id (s.rms.getD 0)

/-- `App.handler`: rebuild the store from a payload, in payload order. -/
def handler (payload : List LiveStation) : Store :=
  payload.foldl handleStation emptyStore

/-- A read of the store: `values[id] ?? 0`. -/
def readVal (m : Store) (id : String) : ℚ := (m id).getD 0

/-! ### Marker list of the polling prototype

Embeds `App.markers` of the axios-polling prototype: one marker per registry
station, its value looked up in the `latest` map via `latest[code]?.value ?? 0`;
a reading for a code outside the registry is never consulted. -/

structure Station where
  code : String
  lat : ℚ
  lon : ℚ

/-- A `/api/readings/latest` entry; `value` is `Option` because the JS reads it
through `info?.value ?? 0`. -/
structure Info where
  value : Option ℚ
  ts : Option String

/-- The `latest` state: a JS record keyed by station code. -/
def Latest : Type := String → Option Info

/-- Installing a reading for one code into `latest`. -/
def setLatest (l : Latest) (c : String) (i : Info) : Latest :=
  fun k => if k = c then some i else l k

/-- One rendered marker entry. -/
structure MarkerEntry where
  code : String
  value : ℚ
  radius : ℚ
  ts : Option String
deriving DecidableEq

/-- `App.markers`: for each registry station, value `latest[code]?.value ?? 0`
and radius `Math.min(20, 4 + value)`. -/
def markers (stations : List Station) (latest : Latest) : List MarkerEntry :=
  stations.map fun s =>
    let info := latest s.code
    let value := (info.bind Info.value).getD 0
    { code := s.code
      value := value
      radius := min 20 (4 + value)
      ts := info.bind Info.ts }

/-! ### Mode controller

Embeds the `mode` state and its toggle button
`setMode(m => (m === 'pin' ? 'overlay' : 'pin'))`, and which renderer the JSX
mounts in each mode. -/

inductive Mode where
  | pin
  | overlay
deriving DecidableEq

/-- The toggle button's updater. -/
def toggle : Mode → Mode
  | .pin => .overlay
  | .overlay => .pin

/-- The marker renderer (`StationPins` and `StationPulse`) is mounted exactly in
pin mode. -/
def markerMounted (m : Mode) : Bool := m = Mode.pin

/-- The heat-field renderer (`GreenHeatOverlay`) is mounted exactly in overlay
mode. -/
def fieldMounted (m : Mode) : Bool := m = Mode.overlay

/-! ### Draw-effect lifecycle

Embeds the `GreenHeatOverlay` draw effect as a state machine over the
single-threaded browser event loop: the effect body does
`raf = requestAnimationFrame(tick)` and attaches `move`/`zoom`/`resize`
listeners; `tick` redraws and re-registers itself, updating `raf`; the cleanup
runs `cancelAnimationFrame(raf)` and detaches the listeners.  `draws` counts
overlay-surface mutations (every `resize(); draw()` pair). -/

structure FxState where
  /-- Ids of this effect's animation-frame callbacks still scheduled. -/
  pending : List ℕ
  /-- Next id `requestAnimationFrame` will hand out. -/
  nextId : ℕ
  /-- The effect's captured `raf` variable. -/
  rafVar : ℕ
  /-- Whether the `move`/`zoom`/`resize` listeners are attached. -/
  listenersOn : Bool
  /-- Number of overlay-surface mutations performed so far. -/
  draws : ℕ
deriving DecidableEq

/-- `requestAnimationFrame`: schedule a callback and return its id. -/
def requestFrame (s : FxState) : FxState × ℕ :=
  ({ s with pending := s.pending ++ [s.nextId], nextId := s.nextId + 1 }, s.nextId)

/-- `cancelAnimationFrame(id)`. -/
def cancelFrame (s : FxState) (id : ℕ) : FxState :=
  { s with pending := s.pending.erase id }

/-- Effect setup: `raf = requestAnimationFrame(tick)`, attach viewport
listeners. -/
def activate (s : FxState) : FxState :=
  let r := requestFrame s
  { r.1 with rafVar := r.2, listenersOn := true }

/-- Effect cleanup: `cancelAnimationFrame(raf)`, detach `move`/`zoom`/`resize`
listeners. -/
def deactivate (s : FxState) : FxState :=
  { cancelFrame s s.rafVar with listenersOn := false }

/-- The body of `tick`: `resize(); draw(); raf = requestAnimationFrame(tick)`. -/
def tickBody (s : FxState) : FxState :=
  let s1 := { s with draws := s.draws + 1 }
  let r := requestFrame s1
  { r.1 with rafVar := r.2 }

/-- Events the browser can deliver: a scheduled frame firing, or a
`move`/`zoom`/`resize` viewport event. -/
inductive FxEvent where
  | frame (id : ℕ)
  | viewport
deriving DecidableEq

/-- One event-loop step.  A frame callback fires only if its id is still
scheduled (it is consumed, then `tick` runs); a viewport event runs the `sync`
handler (`resize(); draw()`) only while the listeners are attached. -/
def step (s : FxState) : FxEvent → FxState
  | .frame id =>
      if id ∈ s.pending then tickBody { s with pending := s.pending.erase id } else s
  | .viewport =>
      if s.listenersOn then { s with draws := s.draws + 1 } else s

/-- Run a sequence of browser events. -/
def runFx (s : FxState) (evs : List FxEvent) : FxState := evs.foldl step s

/-! ### IDW interpolator and heat-field draw

Embeds the per-cell loop of `GreenHeatOverlay.draw`:
`d = Math.sqrt(dx*dx + dy*dy) + eps`, `wgt = 1 / Math.pow(d, power)` with
`power = 2`, `eps = 1e-4`; `num += (vals[i] ?? 0) * wgt; den += wgt`;
`val = den ? num / den : 0`.  Pixel coordinates and values are reals. -/

/-- `eps = 1e-4`. -/
noncomputable def eps : ℝ := 1 / 10000

/-- Euclidean pixel distance `Math.sqrt(dx*dx + dy*dy)`. -/
noncomputable def pixDist (q p : ℝ × ℝ) : ℝ :=
  Real.sqrt ((q.1 - p.1) * (q.1 - p.1) + (q.2 - p.2) * (q.2 - p.2))

/-- The station weight `1 / Math.pow(d + eps, 2)` at a query pixel. -/
noncomputable def weight (q p : ℝ × ℝ) : ℝ :=
  1 / (pixDist q p + eps) ^ 2

/-- The accumulation loop over stations: returns `(num, den)`.  Station `i`
contributes `(vals[i] ?? 0) * wgt` to `num` and `wgt` to `den`; a missing
value reads as `0`. -/
noncomputable def idwLoop (q : ℝ × ℝ) : List (ℝ × ℝ) → List ℝ → ℝ × ℝ
  | [], _ => (0, 0)
  | p :: ps, vs =>
      let w := weight q p
      let rest := idwLoop q ps vs.tail
      (vs.headD 0 * w + rest.1, w + rest.2)

/-- `val = den ? num / den : 0`. -/
noncomputable def interpolate (q : ℝ × ℝ) (sPx : List (ℝ × ℝ)) (vals : List ℝ) : ℝ :=
  let nd := idwLoop q sPx vals
  if nd.2 = 0 then 0 else nd.1 / nd.2

/-- The effective station values the loop reads: `vals[i] ?? 0` for each
station index `i`. -/
def effVals (sPx : List (ℝ × ℝ)) (vals : List ℝ) : List ℝ :=
  (List.range sPx.length).map fun i => vals.getD i 0

/-- `valToRGB` of the overlay (same ramp as `valueToColor`, on the real-valued
interpolation output), as its `[r, g, b]` triple. -/
noncomputable def valToRGB (v : ℝ) : ℤ × ℤ × ℤ :=
  let x := max (-3) (min 3 v)
  if x < 0 then
    (255, ⌊255 * ((x + 3) / 3) + 1/2⌋, 0)
  else
    (⌊255 * (1 - x / 3) + 1/2⌋, 255, 0)

/-- Canvas drawing commands issued by one `draw()` call. -/
inductive PaintOp where
  | clearRect (x y w h : ℝ)
  | fillRect (r g b : ℤ) (x y : ℕ)

/-- A canvas whose `getContext('2d')` may return `null`. -/
structure Canvas where
  ctx2d : Option Unit

/-- The cell origins `0, cell, 2*cell, ...` strictly below `bound` of
`for (let y = 0; y < h; y += cell)`. -/
def cellStarts (bound : ℕ) (cell : ℕ) : List ℕ :=
  (List.range ((bound + cell - 1) / cell)).map fun i => i * cell

/-- One `draw()` call of `GreenHeatOverlay`: bail out silently when the canvas
ref is `null` or `getContext('2d')` returns `null`; otherwise clear the surface
and fill one rectangle per 8-px cell, coloured by the interpolated value. -/
noncomputable def drawField (canvas : Option Canvas) (w h : ℕ)
    (sPx : List (ℝ × ℝ)) (vals : List ℝ) : List PaintOp :=
  match canvas with
  | none => []
  | some c =>
    match c.ctx2d with
    | none => []
    | some _ =>
      PaintOp.clearRect 0 0 w h ::
        (cellStarts h 8).flatMap fun (y : ℕ) =>
          (cellStarts w 8).map fun (x : ℕ) =>
            let val := interpolate ((x : ℝ), (y : ℝ)) sPx vals
            let rgb := valToRGB val
            PaintOp.fillRect rgb.1 rgb.2.1 rgb.2.2 x y

/-! ### Theorems -/

lemma clampRange_mem (v : ℚ) : -3 ≤ clampRange v ∧ clampRange v ≤ 3 := by
  constructor
  · exact le_max_left _ _
  · exact max_le (by norm_num) (min_le_left _ _)

lemma clampRange_idem (v : ℚ) : clampRange (clampRange v) = clampRange v := by
  obtain ⟨h1, h2⟩ := clampRange_mem v
  show max (-3) (min 3 (clampRange v)) = clampRange v
  rw [min_eq_right h2, max_eq_right h1]

/-- C2: `valueToColor` clamps its input to `[-3, 3]`; below `0` it linearly
interpolates red `(255,0,0)` at `-3` to yellow `(255,255,0)` at `0`, at or
above `0` it linearly interpolates yellow to green `(0,255,0)` at `3`; every
`v ≤ -3` maps to `(255,0,0)`, every `v ≥ 3` to `(0,255,0)`, and `0` to
`(255,255,0)`. -/
theorem valueToColor_ramp (v : ℚ) :
    valueToColor v = valueToColor (clampRange v) ∧
    (clampRange v < 0 →
      valueToColor v = lerpColor redC yellowC ((clampRange v + 3) / 3)) ∧
    (0 ≤ clampRange v →
      valueToColor v = lerpColor yellowC greenC (clampRange v / 3)) ∧
    (v ≤ -3 → valueToColor v = (255, 0, 0)) ∧
    (3 ≤ v → valueToColor v = (0, 255, 0)) ∧
    valueToColor 0 = (255, 255, 0) := by
  have hclamp : valueToColor v = valueToColor (clampRange v) := by
    unfold valueToColor
    rw [clampRange_idem]
  refine ⟨hclamp, ?_, ?_, ?_, ?_, ?_⟩
  · intro hneg
    rw [hclamp]
    unfold valueToColor lerpColor lerp redC yellowC jsRound
    rw [clampRange_idem, if_pos hneg]
    norm_num
  · intro hpos
    rw [hclamp]
    unfold valueToColor lerpColor lerp yellowC greenC jsRound
    rw [clampRange_idem, if_neg (not_lt.mpr hpos)]
    simp only [Prod.mk.injEq]
    refine ⟨by congr 1; ring, by norm_num, by norm_num⟩
  · intro hle
    have hc : clampRange v = -3 := by
      show max (-3) (min 3 v) = -3
      rw [min_eq_right (le_trans hle (by norm_num)), max_eq_left hle]
    rw [hclamp, hc]
    norm_num [valueToColor, clampRange, jsRound, min_def, max_def]
  · intro hge
    have hc : clampRange v = 3 := by
      show max (-3) (min 3 v) = 3
      rw [min_eq_left hge, max_eq_right (by norm_num)]
    rw [hclamp, hc]
    norm_num [valueToColor, clampRange, jsRound, min_def, max_def]
  · norm_num [valueToColor, clampRange, jsRound, min_def, max_def]

/-- C2 witness: the endpoint clauses instantiated at `-5`, `7` and `0`. -/
theorem valueToColor_ramp_witness :
    ((-5 : ℚ) ≤ -3 ∧ valueToColor (-5) = (255, 0, 0)) ∧
    ((3 : ℚ) ≤ 7 ∧ valueToColor 7 = (0, 255, 0)) ∧
    (clampRange (-5) < 0 ∧
      valueToColor (-5) = lerpColor redC yellowC ((clampRange (-5) + 3) / 3)) ∧
    valueToColor 0 = (255, 255, 0) :=
  ⟨⟨by norm_num, (valueToColor_ramp (-5)).2.2.2.1 (by norm_num)⟩,
   ⟨by norm_num, (valueToColor_ramp 7).2.2.2.2.1 (by norm_num)⟩,
   ⟨by decide, (valueToColor_ramp (-5)).2.1 (by decide)⟩,
   (valueToColor_ramp 0).2.2.2.2.2⟩

/-- C5: reading the store right after the handler's write for a station returns
exactly the value that was written (`s.rms ?? 0` for a payload station), and a
station id never set reads as `0`, not as an absent value. -/
theorem store_read_your_write :
    (∀ (m : Store) (id : String) (v : ℚ), readVal (setVal m id v) id = v) ∧
    (∀ (m : Store) (s : LiveStation),
      readVal (handleStation m s) s.id = s.rms.getD 0) ∧
    (∀ id : String, readVal emptyStore id = 0) := by
  refine ⟨?_, ?_, ?_⟩
  · intro m id v
    simp [readVal, setVal]
  · intro m s
    simp [handleStation, readVal, setVal]
  · intro id
    simp [readVal, emptyStore]

/-- C6: a reading for a code outside the Station Registry changes no marker and
the marker list keeps exactly one entry per registry station. -/
theorem unknown_reading_ignored (stations : List Station) (latest : Latest)
    (c : String) (i : Info) (h : c ∉ stations.map Station.code) :
    markers stations (setLatest latest c i) = markers stations latest ∧
    (markers stations (setLatest latest c i)).length = stations.length ∧
    (markers stations latest).length = stations.length := by
  refine ⟨?_, by simp [markers], by simp [markers]⟩
  unfold markers
  refine List.map_congr_left ?_
  intro s hs
  have hne : s.code ≠ c := by
    intro hEq
    exact h (hEq ▸ List.mem_map_of_mem Station.code hs)
  simp [setLatest, hne]

/-- C6 witness: a one-station registry and a reading for an unknown code. -/
theorem unknown_reading_ignored_witness :
    "XX" ∉ ([⟨"WAR1", 0, 0⟩] : List Station).map Station.code ∧
    (markers [⟨"WAR1", 0, 0⟩] (setLatest (fun _ => none) "XX" ⟨some 1, none⟩) =
        markers [⟨"WAR1", 0, 0⟩] (fun _ => none) ∧
      (markers [⟨"WAR1", 0, 0⟩]
          (setLatest (fun _ => none) "XX" ⟨some 1, none⟩)).length =
        ([⟨"WAR1", 0, 0⟩] : List Station).length ∧
      (markers [⟨"WAR1", 0, 0⟩] (fun _ => none)).length =
        ([⟨"WAR1", 0, 0⟩] : List Station).length) :=
  ⟨by decide,
   unknown_reading_ignored [⟨"WAR1", 0, 0⟩] (fun _ => none) "XX" ⟨some 1, none⟩
     (by decide)⟩

/-- C7: toggling twice returns the mode controller to its original state, and
in every state exactly one of the two renderers is mounted. -/
theorem toggle_involutive_single_mount (m : Mode) :
    toggle (toggle m) = m ∧ (markerMounted m = true ↔ fieldMounted m = false) := by
  cases m <;> simp [toggle, markerMounted, fieldMounted]

lemma step_pending_inv (s : FxState) (e : FxEvent) (h : s.pending = [s.rafVar]) :
    (step s e).pending = [(step s e).rafVar] := by
  cases e with
  | frame id =>
      by_cases hid : id ∈ s.pending
      · have hEq : id = s.rafVar := by
          rw [h] at hid
          simpa using hid
        simp [step, hid, tickBody, requestFrame, h, hEq]
      · have hne : id ≠ s.rafVar := by
          rw [h] at hid
          simpa using hid
        simp [step, h, hne]
  | viewport =>
      by_cases hl : s.listenersOn = true <;> simp [step, hl, h]

lemma runFx_pending_inv (s : FxState) (evs : List FxEvent)
    (h : s.pending = [s.rafVar]) :
    (runFx s evs).pending = [(runFx s evs).rafVar] := by
  induction evs generalizing s with
  | nil => exact h
  | cons e evs ih =>
      have h1 := step_pending_inv s e h
      simpa [runFx, List.foldl_cons] using ih (step s e) h1

lemma activate_pending (s : FxState) (hs : s.pending = []) :
    (activate s).pending = [(activate s).rafVar] := by
  simp [activate, requestFrame, hs]

lemma deactivate_dead (s : FxState) (h : s.pending = [s.rafVar]) :
    (deactivate s).pending = [] ∧ (deactivate s).listenersOn = false := by
  constructor
  · simp [deactivate, cancelFrame, h]
  · rfl

lemma step_of_dead (s : FxState) (e : FxEvent) (hp : s.pending = [])
    (hl : s.listenersOn = false) : step s e = s := by
  cases e with
  | frame id => simp [step, hp]
  | viewport => simp [step, hl]

lemma runFx_of_dead (s : FxState) (evs : List FxEvent) (hp : s.pending = [])
    (hl : s.listenersOn = false) : runFx s evs = s := by
  induction evs with
  | nil => rfl
  | cons e evs ih =>
      have h1 := step_of_dead s e hp hl
      simp only [runFx, List.foldl_cons, h1]
      exact ih

/-- C8: starting from a freshly mounted effect (no callback of it scheduled
yet), after activation and any sequence of browser events, `deactivate`
synchronously cancels the pending animation frame and detaches the viewport
listeners, so any further events leave the state — in particular the count of
overlay-surface mutations — unchanged. -/
theorem deactivate_stops_callbacks (s : FxState) (hs : s.pending = [])
    (evs evs2 : List FxEvent) :
    runFx (deactivate (runFx (activate s) evs)) evs2 =
        deactivate (runFx (activate s) evs) ∧
      (runFx (deactivate (runFx (activate s) evs)) evs2).draws =
        (deactivate (runFx (activate s) evs)).draws := by
  have h1 : (runFx (activate s) evs).pending = [(runFx (activate s) evs).rafVar] :=
    runFx_pending_inv (activate s) evs (activate_pending s hs)
  obtain ⟨hp, hl⟩ := deactivate_dead (runFx (activate s) evs) h1
  have h2 := runFx_of_dead (deactivate (runFx (activate s) evs)) evs2 hp hl
  exact ⟨h2, by rw [h2]⟩

/-- C8 witness: a concrete run — activate, one frame and one viewport event,
deactivate, then further frame and viewport events change nothing. -/
theorem deactivate_stops_callbacks_witness :
    (FxState.mk [] 0 0 false 0).pending = [] ∧
    (runFx (deactivate (runFx (activate (FxState.mk [] 0 0 false 0))
          [FxEvent.frame 0, FxEvent.viewport]))
        [FxEvent.frame 1, FxEvent.frame 0, FxEvent.viewport] =
      deactivate (runFx (activate (FxState.mk [] 0 0 false 0))
        [FxEvent.frame 0, FxEvent.viewport]) ∧
    (runFx (deactivate (runFx (activate (FxState.mk [] 0 0 false 0))
          [FxEvent.frame 0, FxEvent.viewport]))
        [FxEvent.frame 1, FxEvent.frame 0, FxEvent.viewport]).draws =
      (deactivate (runFx (activate (FxState.mk [] 0 0 false 0))
        [FxEvent.frame 0, FxEvent.viewport])).draws) :=
  ⟨rfl,
   deactivate_stops_callbacks (FxState.mk [] 0 0 false 0) rfl
     [FxEvent.frame 0, FxEvent.viewport]
     [FxEvent.frame 1, FxEvent.frame 0, FxEvent.viewport]⟩

lemma getD_tail (l : List ℝ) (i : ℕ) : l.tail.getD i 0 = l.getD (i + 1) 0 := by
  cases l <;> rfl

lemma headD_eq_getD (l : List ℝ) : l.headD 0 = l.getD 0 0 := by
  cases l <;> rfl

lemma weight_pos (q p : ℝ × ℝ) : 0 < weight q p := by
  unfold weight
  have h1 : 0 ≤ pixDist q p := Real.sqrt_nonneg _
  have h2 : (0 : ℝ) < eps := by norm_num [eps]
  exact div_pos one_pos (pow_pos (by linarith) 2)

lemma idwLoop_snd_nonneg (q : ℝ × ℝ) (sPx : List (ℝ × ℝ)) (vals : List ℝ) :
    0 ≤ (idwLoop q sPx vals).2 := by
  induction sPx generalizing vals with
  | nil => simp [idwLoop]
  | cons p ps ih =>
      have hw := weight_pos q p
      have hr := ih vals.tail
      show 0 ≤ weight q p + (idwLoop q ps vals.tail).2
      linarith

lemma idwLoop_snd_pos (q : ℝ × ℝ) (sPx : List (ℝ × ℝ)) (vals : List ℝ)
    (h : sPx ≠ []) : 0 < (idwLoop q sPx vals).2 := by
  cases sPx with
  | nil => exact absurd rfl h
  | cons p ps =>
      have hw := weight_pos q p
      have hr := idwLoop_snd_nonneg q ps vals.tail
      show 0 < weight q p + (idwLoop q ps vals.tail).2
      linarith

lemma idwLoop_fst_eq (q : ℝ × ℝ) (sPx : List (ℝ × ℝ)) (vals : List ℝ) :
    (idwLoop q sPx vals).1 =
      ∑ i ∈ Finset.range sPx.length, vals.getD i 0 * weight q (sPx.getD i (0, 0)) := by
  induction sPx generalizing vals with
  | nil => simp [idwLoop]
  | cons p ps ih =>
      show vals.headD 0 * weight q p + (idwLoop q ps vals.tail).1 = _
      rw [ih vals.tail, List.length_cons, Finset.sum_range_succ']
      simp only [List.getD_cons_succ, List.getD_cons_zero]
      rw [add_comm, headD_eq_getD]
      congr 1
      refine Finset.sum_congr rfl ?_
      intro i _
      rw [getD_tail]

lemma idwLoop_snd_eq (q : ℝ × ℝ) (sPx : List (ℝ × ℝ)) (vals : List ℝ) :
    (idwLoop q sPx vals).2 =
      ∑ i ∈ Finset.range sPx.length, weight q (sPx.getD i (0, 0)) := by
  induction sPx generalizing vals with
  | nil => simp [idwLoop]
  | cons p ps ih =>
      show weight q p + (idwLoop q ps vals.tail).2 = _
      rw [ih vals.tail, List.length_cons, Finset.sum_range_succ']
      simp only [List.getD_cons_succ, List.getD_cons_zero]
      rw [add_comm]

/-- C1: the interpolator is exactly inverse-distance weighting — each station's
weight is `1 / (distance + eps)^2` with `eps = 1e-4`, the output is the
weight-weighted average of the station values (missing values read as `0`),
and for an empty station list it is `0`. -/
theorem interpolate_idw_formula (q : ℝ × ℝ) (sPx : List (ℝ × ℝ)) (vals : List ℝ) :
    interpolate q sPx vals =
      if sPx = [] then 0
      else
        (∑ i ∈ Finset.range sPx.length, vals.getD i 0 * weight q (sPx.getD i (0, 0))) /
          (∑ i ∈ Finset.range sPx.length, weight q (sPx.getD i (0, 0))) := by
  by_cases h : sPx = []
  · subst h
    simp [interpolate, idwLoop]
  · rw [if_neg h]
    have hden := idwLoop_snd_pos q sPx vals h
    show (if (idwLoop q sPx vals).2 = 0 then (0 : ℝ)
        else (idwLoop q sPx vals).1 / (idwLoop q sPx vals).2) = _
    rw [if_neg hden.ne', idwLoop_fst_eq, idwLoop_snd_eq]

/-- C3: with exactly one station at pixel distance `0` from the query the
interpolator returns that station's value (exactly, hence within any
eps-induced bound), and with zero stations it returns `0`. -/
theorem single_station_exact (q p : ℝ × ℝ) (v : ℝ) (vals : List ℝ)
    (h : pixDist q p = 0) :
    interpolate q [p] [v] = v ∧ interpolate q [] vals = 0 := by
  constructor
  · have hw := weight_pos q p
    show (if (idwLoop q [p] [v]).2 = 0 then (0 : ℝ)
        else (idwLoop q [p] [v]).1 / (idwLoop q [p] [v]).2) = v
    have hnd : idwLoop q [p] [v] = (v * weight q p + 0, weight q p + 0) := rfl
    rw [hnd]
    have hden : weight q p + 0 ≠ 0 := by
      rw [add_zero]
      exact hw.ne'
    rw [if_neg hden]
    rw [add_zero, add_zero, mul_div_assoc, div_self hw.ne', mul_one]
  · simp [interpolate, idwLoop]

/-- C3 witness: one station exactly at the query pixel, value `5`. -/
theorem single_station_exact_witness :
    pixDist ((0 : ℝ), (0 : ℝ)) ((0 : ℝ), (0 : ℝ)) = 0 ∧
    (interpolate ((0 : ℝ), (0 : ℝ)) [((0 : ℝ), (0 : ℝ))] [5] = 5 ∧
      interpolate ((0 : ℝ), (0 : ℝ)) [] [] = 0) :=
  ⟨by simp [pixDist], single_station_exact ((0 : ℝ), (0 : ℝ)) ((0 : ℝ), (0 : ℝ)) 5 []
    (by simp [pixDist])⟩

/-- C4: two stations equidistant from the query pixel with values `3.0` and
`-3.0` interpolate to exactly `0.0`. -/
theorem equidistant_opposites_cancel (q a b : ℝ × ℝ)
    (h : pixDist q a = pixDist q b) :
    interpolate q [a, b] [3, -3] = 0 := by
  have hw : weight q b = weight q a := by
    unfold weight
    rw [h]
  have hpos := weight_pos q a
  show (if (idwLoop q [a, b] [3, -3]).2 = 0 then (0 : ℝ)
      else (idwLoop q [a, b] [3, -3]).1 / (idwLoop q [a, b] [3, -3]).2) = 0
  have hnd : idwLoop q [a, b] [3, -3] =
      (3 * weight q a + ((-3) * weight q b + 0), weight q a + (weight q b + 0)) := rfl
  rw [hnd, hw]
  have hden : weight q a + (weight q a + 0) ≠ 0 := by
    rw [add_zero]
    linarith
  rw [if_neg hden]
  have hnum : (3 : ℝ) * weight q a + ((-3) * weight q a + 0) = 0 := by ring
  rw [hnum, zero_div]

/-- C4 witness: query at the origin, stations at `(1, 0)` and `(-1, 0)`. -/
theorem equidistant_opposites_cancel_witness :
    pixDist ((0 : ℝ), (0 : ℝ)) ((1 : ℝ), (0 : ℝ)) =
        pixDist ((0 : ℝ), (0 : ℝ)) ((-1 : ℝ), (0 : ℝ)) ∧
    interpolate ((0 : ℝ), (0 : ℝ)) [((1 : ℝ), (0 : ℝ)), ((-1 : ℝ), (0 : ℝ))]
        [3, -3] = 0 :=
  have h : pixDist ((0 : ℝ), (0 : ℝ)) ((1 : ℝ), (0 : ℝ)) =
      pixDist ((0 : ℝ), (0 : ℝ)) ((-1 : ℝ), (0 : ℝ)) := by
    unfold pixDist
    norm_num
  ⟨h, equidistant_opposites_cancel _ _ _ h⟩

/-- C9: when the canvas ref is `null` or `getContext('2d')` returns `null`,
a `draw()` call issues no drawing command at all (and, being a total function,
raises no error), so an unsupported surface renders nothing. -/
theorem draw_noop_without_surface (canvas : Option Canvas) (w h : ℕ)
    (sPx : List (ℝ × ℝ)) (vals : List ℝ)
    (hc : canvas = none ∨ ∃ c, canvas = some c ∧ c.ctx2d = none) :
    drawField canvas w h sPx vals = [] := by
  rcases hc with hnone | ⟨c, hsome, hctx⟩
  · rw [hnone]
    rfl
  · rcases c with ⟨x⟩
    have hx : x = none := hctx
    subst hx
    rw [hsome]
    rfl

/-- C9 witness: a missing canvas and a canvas without 2D context. -/
theorem draw_noop_without_surface_witness :
    ((none : Option Canvas) = none ∨
        ∃ c, (none : Option Canvas) = some c ∧ c.ctx2d = none) ∧
    drawField none 640 480 [((0 : ℝ), (0 : ℝ))] [1] = [] :=
  ⟨Or.inl rfl, draw_noop_without_surface none 640 480 [((0 : ℝ), (0 : ℝ))] [1]
    (Or.inl rfl)⟩

lemma effVals_cons (p : ℝ × ℝ) (ps : List (ℝ × ℝ)) (vs : List ℝ) :
    effVals (p :: ps) vs = vs.getD 0 0 :: effVals ps vs.tail := by
  unfold effVals
  rw [List.length_cons, List.range_succ_eq_map, List.map_cons, List.map_map]
  congr 1
  refine List.map_congr_left ?_
  intro i _
  simp only [Function.comp_apply]
  rw [getD_tail]

lemma idwLoop_fst_le (q : ℝ × ℝ) (sPx : List (ℝ × ℝ)) (vals : List ℝ) (hi : ℝ)
    (h : ∀ x ∈ effVals sPx vals, x ≤ hi) :
    (idwLoop q sPx vals).1 ≤ hi * (idwLoop q sPx vals).2 := by
  induction sPx generalizing vals with
  | nil => simp [idwLoop]
  | cons p ps ih =>
      have hhead : vals.getD 0 0 ≤ hi := by
        refine h _ ?_
        rw [effVals_cons]
        exact List.mem_cons_self _ _
      have htail : ∀ x ∈ effVals ps vals.tail, x ≤ hi := by
        intro x hx
        refine h x ?_
        rw [effVals_cons]
        exact List.mem_cons_of_mem _ hx
      have hrest := ih vals.tail htail
      have hw := weight_pos q p
      show vals.headD 0 * weight q p + (idwLoop q ps vals.tail).1 ≤
        hi * (weight q p + (idwLoop q ps vals.tail).2)
      rw [headD_eq_getD, mul_add]
      have h1 : vals.getD 0 0 * weight q p ≤ hi * weight q p :=
        mul_le_mul_of_nonneg_right hhead hw.le
      linarith

lemma idwLoop_fst_ge (q : ℝ × ℝ) (sPx : List (ℝ × ℝ)) (vals : List ℝ) (lo : ℝ)
    (h : ∀ x ∈ effVals sPx vals, lo ≤ x) :
    lo * (idwLoop q sPx vals).2 ≤ (idwLoop q sPx vals).1 := by
  induction sPx generalizing vals with
  | nil => simp [idwLoop]
  | cons p ps ih =>
      have hhead : lo ≤ vals.getD 0 0 := by
        refine h _ ?_
        rw [effVals_cons]
        exact List.mem_cons_self _ _
      have htail : ∀ x ∈ effVals ps vals.tail, lo ≤ x := by
        intro x hx
        refine h x ?_
        rw [effVals_cons]
        exact List.mem_cons_of_mem _ hx
      have hrest := ih vals.tail htail
      have hw := weight_pos q p
      show lo * (weight q p + (idwLoop q ps vals.tail).2) ≤
        vals.headD 0 * weight q p + (idwLoop q ps vals.tail).1
      rw [headD_eq_getD, mul_add]
      have h1 : lo * weight q p ≤ vals.getD 0 0 * weight q p :=
        mul_le_mul_of_nonneg_right hhead hw.le
      linarith

/-- C10: every station weight is strictly positive, and on a non-empty station
list the interpolated value lies between the minimum and the maximum of the
effective station values (`vals[i] ?? 0`): the field never overshoots or
undershoots the data range. -/
theorem interpolate_within_range (q : ℝ × ℝ) (sPx : List (ℝ × ℝ)) (vals : List ℝ)
    (h : sPx ≠ []) (m M : ℝ)
    (hm : (effVals sPx vals).minimum = (m : WithTop ℝ))
    (hM : (effVals sPx vals).maximum = (M : WithBot ℝ)) :
    (∀ i, i < sPx.length → 0 < weight q (sPx.getD i (0, 0))) ∧
      m ≤ interpolate q sPx vals ∧ interpolate q sPx vals ≤ M := by
  have hlo : ∀ x ∈ effVals sPx vals, m ≤ x :=
    (List.minimum_eq_coe_iff.mp hm).2
  have hhi : ∀ x ∈ effVals sPx vals, x ≤ M :=
    (List.maximum_eq_coe_iff.mp hM).2
  have hden := idwLoop_snd_pos q sPx vals h
  refine ⟨fun i _ => weight_pos q _, ?_, ?_⟩
  · show m ≤ (if (idwLoop q sPx vals).2 = 0 then (0 : ℝ)
        else (idwLoop q sPx vals).1 / (idwLoop q sPx vals).2)
    rw [if_neg hden.ne']
    rw [le_div_iff₀ hden]
    exact idwLoop_fst_ge q sPx vals m hlo
  · show (if (idwLoop q sPx vals).2 = 0 then (0 : ℝ)
        else (idwLoop q sPx vals).1 / (idwLoop q sPx vals).2) ≤ M
    rw [if_neg hden.ne']
    rw [div_le_iff₀ hden]
    exact idwLoop_fst_le q sPx vals M hhi

/-- C10 witness: one station with value `2`; the output is bounded by
`min = max = 2`. -/
theorem interpolate_within_range_witness :
    ([((3 : ℝ), (4 : ℝ))] : List (ℝ × ℝ)) ≠ [] ∧
    (effVals [((3 : ℝ), (4 : ℝ))] [2]).minimum = ((2 : ℝ) : WithTop ℝ) ∧
    (effVals [((3 : ℝ), (4 : ℝ))] [2]).maximum = ((2 : ℝ) : WithBot ℝ) ∧
    ((∀ i, i < ([((3 : ℝ), (4 : ℝ))] : List (ℝ × ℝ)).length →
        0 < weight ((0 : ℝ), (0 : ℝ)) (([((3 : ℝ), (4 : ℝ))] :
          List (ℝ × ℝ)).getD i (0, 0))) ∧
      2 ≤ interpolate ((0 : ℝ), (0 : ℝ)) [((3 : ℝ), (4 : ℝ))] [2] ∧
      interpolate ((0 : ℝ), (0 : ℝ)) [((3 : ℝ), (4 : ℝ))] [2] ≤ 2) :=
  have heff : effVals [((3 : ℝ), (4 : ℝ))] [2] = [2] := by
    norm_num [effVals, List.range_succ]
  have hm : (effVals [((3 : ℝ), (4 : ℝ))] [2]).minimum = ((2 : ℝ) : WithTop ℝ) := by
    rw [heff]
    exact List.minimum_singleton 2
  have hM : (effVals [((3 : ℝ), (4 : ℝ))] [2]).maximum = ((2 : ℝ) : WithBot ℝ) := by
    rw [heff]
    exact List.maximum_singleton 2
  ⟨by simp, hm, hM,
    interpolate_within_range ((0 : ℝ), (0 : ℝ)) [((3 : ℝ), (4 : ℝ))] [2]
      (by simp) 2 2 hm hM⟩

end Seismographer
